import Mathlib

/-!
Verification development for the xmtpd repository: a shallow embedding of
the membership-registry watcher (`pkg/registry/contractRegistry.go`), the
random topic syncer (`randomTopicSyncer.Fetch`), and the envelope ordering
used by query comparisons, together with theorems about their behaviour.
-/

namespace Xmtpd

/-- A registry node as produced by `convertNode`.  The signing key is kept
as its canonical bytes (`none` when unmarshalling failed). -/
structure Node where
  nodeID : Nat
  signingKey : Option (List Nat)
  httpAddress : String
  isHealthy : Bool
  isValidConfig : Bool
deriving DecidableEq, Repr

/-- Modelled from the spec: `Node.Equals` is field-by-field equality
including the derived `valid_config` bit, signing keys compared by
canonical bytes (the method body itself is not part of the sources). -/
def Node.Equals (a b : Node) : Bool :=
  decide (a = b)

/-- The raw contract record `abis.NodesNode` (the fields `convertNode`
reads). -/
structure NodesNode where
  signingKeyPub : List Nat
  httpAddress : String
  isHealthy : Bool
deriving DecidableEq, Repr

/-- The raw contract record `abis.NodesNodeWithId`. -/
structure NodesNodeWithId where
  nodeId : Nat
  node : NodesNode
deriving DecidableEq, Repr

/-- `convertNode`, parametrised by the external `crypto.UnmarshalPubkey`
(returning the canonical bytes of the parsed key, or `none` on error).
`isValidConfig` is set exactly as in the source: the key must unmarshal
and the address must carry an http or https scheme. -/
def convertNode (unmarshal : List Nat → Option (List Nat))
    (rawNode : NodesNodeWithId) : Node :=
  let signingKey := unmarshal rawNode.node.signingKeyPub
  let isValidKey := signingKey.isSome
  let httpAddress := rawNode.node.httpAddress
  let isValidConfig :=
    if !(httpAddress.startsWith "https://") && !(httpAddress.startsWith "http://") then
      false
    else
      isValidKey
  { nodeID := rawNode.nodeId
    signingKey := signingKey
    httpAddress := httpAddress
    isHealthy := rawNode.node.isHealthy
    isValidConfig := isValidConfig }

/-- `loadFromContract` on a successful contract call: convert every raw
node in order. -/
def loadFromContract (unmarshal : List Nat → Option (List Nat))
    (rawNodes : List NodesNodeWithId) : List Node :=
  rawNodes.map (convertNode unmarshal)

/-- The in-memory roster `s.nodes : map[uint16]Node`, as a lookup
function. -/
def RMap : Type := Nat → Option Node

/-- The empty roster `make(map[uint16]Node)`. -/
def emptyR : RMap := fun _ => none

/-- `s.nodes[i] = v`. -/
def RMap.insert (m : RMap) (i : Nat) (v : Node) : RMap :=
  fun j => if j = i then some v else m j

/-- Observable notifications of the registry: one `NewNodes` batch, or one
value on the per-id changed-node notifier. -/
inductive REvent where
  | newBatch (l : List Node)
  | changed (n : Node)
deriving DecidableEq, Repr

/-- The diff loop of `refreshData` over the fetched snapshot: walks the
snapshot in order; an id absent from the roster is collected into
`newNodes` (the roster is not yet updated); an id present with an unequal
value goes through `processChangedNode`, which stores the node and
triggers the per-id notifier when one exists (`subs` tells which ids have
one).  Returns the roster after the loop, the changed events emitted in
order, and the collected `newNodes`. -/
def loopPhase (subs : Nat → Bool) : RMap → List Node →
    RMap × List REvent × List Node
  | m, [] => (m, [], [])
  | m, node :: rest =>
    match m node.nodeID with
    | none =>
      let r := loopPhase subs m rest
      (r.1, r.2.1, node :: r.2.2)
    | some existingValue =>
      if Node.Equals node existingValue then
        loopPhase subs m rest
      else
        let m1 := RMap.insert m node.nodeID node
        let evs := if subs node.nodeID then [REvent.changed node] else []
        let r := loopPhase subs m1 rest
        (r.1, evs ++ r.2.1, r.2.2)

/-- The roster writes of `processNewNodes`: store each new node in
order. -/
def insertAll (m : RMap) : List Node → RMap
  | [] => m
  | node :: rest => insertAll (RMap.insert m node.nodeID node) rest

/-- `refreshData` on a successfully fetched snapshot: run the diff loop,
then, when `newNodes` is non-empty, trigger the `NewNodes` notifier with
the whole batch and store the batch.  Returns the new roster and the
notifications in emission order. -/
def refreshData (subs : Nat → Bool) (m : RMap) (fromContract : List Node) :
    RMap × List REvent :=
  let r := loopPhase subs m fromContract
  if r.2.2.isEmpty then
    (r.1, r.2.1)
  else
    (insertAll r.1 r.2.2, r.2.1 ++ [REvent.newBatch r.2.2])

/-- One tick of `refreshLoop`: the input is the outcome of
`loadFromContract` (`none` = fetch error, which is only logged) paired
with the per-id subscription state at that tick. -/
def tick (m : RMap) : (Nat → Bool) × Option (List Node) → RMap × List REvent
  | (_, none) => (m, [])
  | (subs, some fromContract) => refreshData subs m fromContract

/-- The refresh loop over a finite schedule of tick inputs, accumulating
the notification trace. -/
def runTicks : RMap → List ((Nat → Bool) × Option (List Node)) →
    RMap × List REvent
  | m, [] => (m, [])
  | m, t :: ts =>
    let r1 := tick m t
    let r2 := runTicks r1.1 ts
    (r2.1, r1.2 ++ r2.2)

/-- The error `Start` propagates when the initial `refreshData` fails. -/
inductive GoErr where
  | fetchFailed
deriving DecidableEq, Repr

/-- `Start`: run the initial `refreshData` on the empty roster; on error
return it (the background loop is never started), otherwise start the
refresh loop over the schedule. -/
def start (subs0 : Nat → Bool) (initialFetch : Option (List Node))
    (ticks : List ((Nat → Bool) × Option (List Node))) :
    Except GoErr (RMap × List REvent) :=
  match initialFetch with
  | none => Except.error GoErr.fetchFailed
  | some fromContract =>
    let r1 := refreshData subs0 emptyR fromContract
    let r2 := runTicks r1.1 ticks
    Except.ok (r2.1, r1.2 ++ r2.2)

/-- The zero value of the Go `Node` struct, the content of the freshly
made slice in `GetNodes`. -/
def zeroNode : Node :=
  { nodeID := 0
    signingKey := none
    httpAddress := ""
    isHealthy := false
    isValidConfig := false }

/-- The loop body of `GetNodes`: `nodes[idx] = node` for each map entry,
where `idx` is the map key.  An index at or beyond the slice length is a
runtime panic, modelled as `none`. -/
def setSlots : List Node → List (Nat × Node) → Option (List Node)
  | acc, [] => some acc
  | acc, (idx, node) :: rest =>
    if idx < acc.length then setSlots (acc.set idx node) rest else none

/-- `GetNodes` over the roster map given as its entry list: allocate
`make([]Node, len(s.nodes))`, write each entry at its key, and return
`(nodes, nil)`.  `none` models the index-out-of-range panic. -/
def getNodes (entries : List (Nat × Node)) :
    Option (List Node × Option GoErr) :=
  match setSlots (List.replicate entries.length zeroNode) entries with
  | none => none
  | some nodes => some (nodes, none)

/-- A CRDT event as the syncer sees it: a content id and the rest of the
event. -/
structure CEvent where
  cid : List Nat
  payload : List Nat
deriving DecidableEq, Repr

/-- `randomTopicSyncer.Fetch` with the chosen peer's `node.Get(topic, ·)`
abstracted as `get`: ask for every cid in order; the first per-cid error
fails the whole request with no partial result. -/
def fetch (get : List Nat → Option CEvent) : List (List Nat) →
    Option (List CEvent)
  | [] => some []
  | cid :: rest =>
    match get cid with
    | none => none
    | some ev =>
      match fetch get rest with
      | none => none
      | some results => some (ev :: results)

/-- An envelope as the query comparator sees it: `TimestampNs` (uint64)
and `Message` bytes. -/
structure Envelope where
  timestampNs : Nat
  message : List Nat
deriving DecidableEq, Repr

/-- Go's `int(u)` for a uint64 value: two's-complement
reinterpretation. -/
def toInt64 (z : Nat) : Int :=
  if z % 2 ^ 64 < 2 ^ 63 then ((z % 2 ^ 64 : Nat) : Int)
  else ((z % 2 ^ 64 : Nat) : Int) - 2 ^ 64

/-- Wrapping int64 arithmetic: reduce into `[-2^63, 2^63)`. -/
def wrap64 (x : Int) : Int :=
  (x + 2 ^ 63) % 2 ^ 64 - 2 ^ 63

/-- `bytes.Compare(a, b) < 0`: lexicographic byte order, a strict prefix
sorting first. -/
def bytesLt : List Nat → List Nat → Bool
  | [], [] => false
  | [], _ :: _ => true
  | _ :: _, [] => false
  | a :: as, b :: bs =>
    if a < b then true else if b < a then false else bytesLt as bs

/-- The comparator of `requireEnvelopesEqual`:
`d := int(a.TimestampNs) - int(b.TimestampNs); if d != 0 { return d < 0 };
return bytes.Compare(a.Message, b.Message) < 0`, with int64 wrap-around
semantics. -/
def envLess (a b : Envelope) : Bool :=
  let d := wrap64 (toInt64 a.timestampNs - toInt64 b.timestampNs)
  if d ≠ 0 then decide (d < 0) else bytesLt a.message b.message

/-- Id `i` has been announced in the trace `evs`: some `NewNodes` batch in
`evs` contains a node with that id. -/
def announced (i : Nat) (evs : List REvent) : Prop :=
  ∃ l, REvent.newBatch l ∈ evs ∧ ∃ x ∈ l, x.nodeID = i

/-- Subscription state with a per-id notifier for every id. -/
def subsAll : Nat → Bool := fun _ => true

/-- Test fixture: a node with id 1. -/
def nA : Node :=
  { nodeID := 1
    signingKey := some [4, 7]
    httpAddress := ""
    isHealthy := true
    isValidConfig := false }

/-- Test fixture: the id-1 node after a health change. -/
def nA2 : Node :=
  { nodeID := 1
    signingKey := some [4, 7]
    httpAddress := ""
    isHealthy := false
    isValidConfig := false }

/-- Test fixture: a node with id 2. -/
def nB : Node :=
  { nodeID := 2
    signingKey := none
    httpAddress := ""
    isHealthy := true
    isValidConfig := false }

/-- Test fixture: a roster holding only `nA` under id 1. -/
def mW : RMap := fun j => if j = 1 then some nA else none

/-- Test fixture: a snapshot that changes id 1 and introduces id 2. -/
def fcW : List Node := [nA2, nB]

/-- Test fixture: a peer lookup serving every cid. -/
def getW : List Nat → Option CEvent := fun c => some { cid := c, payload := [] }

/-- C1: `GetNodes` allocates a slice of length `len(s.nodes)` and writes
each node at the index given by its uint16 id, so a roster whose ids are
not exactly `0..n-1` makes the write panic (modelled as `none`) instead of
returning the stored nodes: here a roster holding one node under id 1. -/
theorem getNodes_panics_on_sparse_ids :
    getNodes [(1, nA)] = none ∧ getNodes [(0, nA), (1, nB)] = some ([nA, nB], none) := by
  constructor <;> rfl

/-- C10: whenever `GetNodes` returns (does not panic), the error of the
returned pair is `nil`. -/
theorem getNodes_error_is_nil (entries : List (Nat × Node))
    (nodes : List Node) (e : Option GoErr)
    (h : getNodes entries = some (nodes, e)) : e = none := by
  unfold getNodes at h
  cases hs : setSlots (List.replicate entries.length zeroNode) entries with
  | none => rw [hs] at h; cases h
  | some l => rw [hs] at h; cases h; rfl

/-- Witness for C10 at a concrete roster. -/
theorem getNodes_error_is_nil_witness :
    getNodes [(0, nA)] = some ([nA], none) ∧ (none : Option GoErr) = none :=
  ⟨rfl, getNodes_error_is_nil [(0, nA)] [nA] none rfl⟩

/-- C4: `Start` returns the fetch error and never starts the refresh loop
when the initial load fails (the result does not depend on the tick
schedule), and it returns successfully, with the loop running over the
schedule, exactly when the initial load succeeds. -/
theorem start_fails_without_initial_fetch (subs0 : Nat → Bool)
    (ticks : List ((Nat → Bool) × Option (List Node))) :
    start subs0 none ticks = Except.error GoErr.fetchFailed ∧
    ∀ fromContract : List Node,
      start subs0 (some fromContract) ticks =
        Except.ok
          ((runTicks (refreshData subs0 emptyR fromContract).1 ticks).1,
            (refreshData subs0 emptyR fromContract).2 ++
              (runTicks (refreshData subs0 emptyR fromContract).1 ticks).2) := by
  exact ⟨rfl, fun _ => rfl⟩

/-- C5: a tick whose roster fetch fails leaves the roster unchanged and
emits no notification, and the loop continues with the remaining ticks as
if the failed tick had not happened. -/
theorem tick_failure_is_noop (m : RMap) (subs : Nat → Bool)
    (rest : List ((Nat → Bool) × Option (List Node))) :
    tick m (subs, none) = (m, []) ∧
    runTicks m ((subs, none) :: rest) = runTicks m rest := by
  refine ⟨rfl, ?_⟩
  show ((runTicks m rest).1, [] ++ (runTicks m rest).2) = runTicks m rest
  simp

/-- C6: `convertNode` marks the config valid exactly when the signing key
unmarshals and the address has an http or https scheme; it is a pure
function (two conversions of the same raw node are equal); and every raw
node, valid or not, is returned by `loadFromContract` rather than causing
an error. -/
theorem convertNode_validConfig_iff (unmarshal : List Nat → Option (List Nat))
    (rawNode : NodesNodeWithId) :
    ((convertNode unmarshal rawNode).isValidConfig = true ↔
      ((unmarshal rawNode.node.signingKeyPub).isSome = true ∧
        (rawNode.node.httpAddress.startsWith "https://" = true ∨
          rawNode.node.httpAddress.startsWith "http://" = true))) ∧
    convertNode unmarshal rawNode = convertNode unmarshal rawNode ∧
    ∀ rawNodes : List NodesNodeWithId, rawNode ∈ rawNodes →
      convertNode unmarshal rawNode ∈ loadFromContract unmarshal rawNodes ∧
      (loadFromContract unmarshal rawNodes).length = rawNodes.length := by
  refine ⟨?_, rfl, ?_⟩
  · simp only [convertNode]
    cases h1 : rawNode.node.httpAddress.startsWith "https://" <;>
      cases h2 : rawNode.node.httpAddress.startsWith "http://" <;>
        cases hk : (unmarshal rawNode.node.signingKeyPub).isSome <;>
          simp [h1, h2, hk]
  · intro rawNodes hmem
    exact ⟨List.mem_map_of_mem _ hmem, by simp [loadFromContract]⟩

/-- C7: assuming the peer's `Get` serves an event only under its own cid
(content-address integrity of the store), `Fetch` either returns one event
per requested cid, each with exactly the requested cid, or fails the whole
request: a failing cid anywhere in the list makes the result `none` with
no partial result. -/
theorem fetch_matches_cids_or_fails (get : List Nat → Option CEvent)
    (hwf : ∀ c e, get c = some e → e.cid = c) (cids : List (List Nat)) :
    (∀ results, fetch get cids = some results →
      List.Forall₂ (fun c e => CEvent.cid e = c) cids results) ∧
    ((∃ c ∈ cids, get c = none) → fetch get cids = none) := by
  induction cids with
  | nil =>
    refine ⟨?_, ?_⟩
    · intro results h
      cases h
      exact List.Forall₂.nil
    · rintro ⟨c, hc, -⟩
      cases hc
  | cons cid rest ih =>
    refine ⟨?_, ?_⟩
    · intro results h
      unfold fetch at h
      cases hg : get cid with
      | none => rw [hg] at h; cases h
      | some ev =>
        rw [hg] at h
        cases hr : fetch get rest with
        | none => rw [hr] at h; cases h
        | some tailResults =>
          rw [hr] at h
          cases h
          exact List.Forall₂.cons (hwf cid ev hg) (ih.1 tailResults hr)
    · rintro ⟨c, hc, hnone⟩
      unfold fetch
      rcases List.mem_cons.mp hc with hceq | hcrest
      · rw [hceq] at hnone
        rw [hnone]
      · cases hg : get cid with
        | none => rfl
        | some ev =>
          rw [ih.2 ⟨c, hcrest, hnone⟩]

/-- Witness for C7 at a lookup serving every cid and a concrete request. -/
theorem fetch_matches_cids_or_fails_witness :
    (∀ c e, getW c = some e → e.cid = c) ∧
    List.Forall₂ (fun c e => CEvent.cid e = c) [[1], [2, 3]]
      [{ cid := [1], payload := [] }, { cid := [2, 3], payload := [] }] :=
  ⟨fun c e h => by cases h; rfl,
    (fetch_matches_cids_or_fails getW (fun c e h => by cases h; rfl)
      [[1], [2, 3]]).1 _ rfl⟩

/-- C8 counterexample: the comparator casts the uint64 timestamps to int
and subtracts, so for timestamps `0` and `2 ^ 63 + 1` the difference wraps
and the envelope with the larger uint64 timestamp sorts strictly first,
refuting the claim that smaller uint64 timestamps always sort before
larger ones. -/
theorem envLess_wraps_on_large_timestamps :
    (0 : Nat) < 2 ^ 63 + 1 ∧
    envLess { timestampNs := 0, message := [] }
      { timestampNs := 2 ^ 63 + 1, message := [] } = false ∧
    envLess { timestampNs := 2 ^ 63 + 1, message := [] }
      { timestampNs := 0, message := [] } = true := by
  exact ⟨by decide, by decide, by decide⟩

/-- C8 (amended): for envelopes whose timestamps are below `2 ^ 63` — so
the int conversion and the subtraction cannot wrap — the comparator is
exactly the lexicographic order on (timestamp, payload bytes): smaller
timestamps sort strictly first with payload bytes as tiebreak, a total
order on those keys, so all nodes sort such envelope sets identically. -/
theorem envLess_orders_below_two_pow_63 (a b : Envelope)
    (ha : a.timestampNs < 2 ^ 63) (hb : b.timestampNs < 2 ^ 63) :
    (envLess a b = true ↔
      (a.timestampNs < b.timestampNs ∨
        (a.timestampNs = b.timestampNs ∧ bytesLt a.message b.message = true))) := by
  have hta : toInt64 a.timestampNs = (a.timestampNs : Int) := by
    unfold toInt64
    rw [Nat.mod_eq_of_lt (by omega)]
    rw [if_pos ha]
  have htb : toInt64 b.timestampNs = (b.timestampNs : Int) := by
    unfold toInt64
    rw [Nat.mod_eq_of_lt (by omega)]
    rw [if_pos hb]
  have key : wrap64 (toInt64 a.timestampNs - toInt64 b.timestampNs)
      = (a.timestampNs : Int) - (b.timestampNs : Int) := by
    rw [hta, htb]
    unfold wrap64
    rw [Int.emod_eq_of_lt (by omega) (by omega)]
    ring
  simp only [envLess, key]
  by_cases heq : a.timestampNs = b.timestampNs
  · have hz : (a.timestampNs : Int) - (b.timestampNs : Int) = 0 := by omega
    simp [hz, heq]
  · have hnz : (a.timestampNs : Int) - (b.timestampNs : Int) ≠ 0 := by omega
    rw [if_pos hnz]
    simp only [decide_eq_true_eq]
    constructor
    · intro h
      exact Or.inl (by omega)
    · rintro (h | ⟨h, -⟩)
      · omega
      · exact absurd h heq

/-- Witness for the amended C8 at concrete envelopes. -/
theorem envLess_orders_below_two_pow_63_witness :
    (1 : Nat) < 2 ^ 63 ∧ (2 : Nat) < 2 ^ 63 ∧
    (envLess { timestampNs := 1, message := [] }
        { timestampNs := 2, message := [3] } = true ↔
      ((1 : Nat) < 2 ∨ ((1 : Nat) = 2 ∧ bytesLt [] [3] = true))) :=
  ⟨by decide, by decide,
    envLess_orders_below_two_pow_63 { timestampNs := 1, message := [] }
      { timestampNs := 2, message := [3] } (by decide) (by decide)⟩

theorem insert_apply_ne (m : RMap) (i : Nat) (v : Node) (j : Nat) (h : j ≠ i) :
    RMap.insert m i v j = m j := by
  simp [RMap.insert, h]

theorem insert_apply_self (m : RMap) (i : Nat) (v : Node) :
    RMap.insert m i v i = some v := by
  simp [RMap.insert]

theorem loopPhase_map_untouched (subs : Nat → Bool) :
    ∀ (fc : List Node) (m : RMap) (i : Nat), (∀ n ∈ fc, n.nodeID ≠ i) →
      (loopPhase subs m fc).1 i = m i := by
  intro fc
  induction fc with
  | nil => intro m i _; rfl
  | cons node rest ih =>
    intro m i hni
    have hnode : node.nodeID ≠ i := hni node (List.mem_cons_self node rest)
    have hrest : ∀ n ∈ rest, n.nodeID ≠ i := fun n hn => hni n (List.mem_cons_of_mem _ hn)
    cases hm : m node.nodeID with
    | none =>
      simp only [loopPhase, hm]
      exact ih m i hrest
    | some existingValue =>
      by_cases heq : Node.Equals node existingValue
      · simp only [loopPhase, hm, if_pos heq]
        exact ih m i hrest
      · simp only [loopPhase, hm, if_neg heq]
        rw [ih _ i hrest]
        exact insert_apply_ne m node.nodeID node i (Ne.symm hnode)

theorem loopPhase_isSome (subs : Nat → Bool) :
    ∀ (fc : List Node) (m : RMap) (i : Nat),
      ((loopPhase subs m fc).1 i).isSome = (m i).isSome := by
  intro fc
  induction fc with
  | nil => intro m i; rfl
  | cons node rest ih =>
    intro m i
    cases hm : m node.nodeID with
    | none =>
      simp only [loopPhase, hm]
      exact ih m i
    | some existingValue =>
      by_cases heq : Node.Equals node existingValue
      · simp only [loopPhase, hm, if_pos heq]
        exact ih m i
      · simp only [loopPhase, hm, if_neg heq]
        rw [ih _ i]
        by_cases hi : i = node.nodeID
        · subst hi
          rw [insert_apply_self, hm]
          rfl
        · rw [insert_apply_ne m node.nodeID node i hi]

theorem loopPhase_newNodes (subs : Nat → Bool) :
    ∀ (fc : List Node) (m : RMap),
      (loopPhase subs m fc).2.2 = fc.filter (fun n => (m n.nodeID).isNone) := by
  intro fc
  induction fc with
  | nil => intro m; rfl
  | cons node rest ih =>
    intro m
    cases hm : m node.nodeID with
    | none =>
      simp only [loopPhase, hm, List.filter_cons]
      rw [ih m]
      simp [hm]
    | some existingValue =>
      by_cases heq : Node.Equals node existingValue
      · simp only [loopPhase, hm, if_pos heq, List.filter_cons]
        rw [ih m]
        simp [hm]
      · simp only [loopPhase, hm, if_neg heq, List.filter_cons]
        rw [ih (RMap.insert m node.nodeID node)]
        have hcong :
            List.filter (fun n => ((RMap.insert m node.nodeID node) n.nodeID).isNone) rest
              = List.filter (fun n => (m n.nodeID).isNone) rest := by
          apply List.filter_congr
          intro x hx
          by_cases hxi : x.nodeID = node.nodeID
          · rw [hxi, insert_apply_self, hm]
            rfl
          · rw [insert_apply_ne m node.nodeID node x.nodeID hxi]
        rw [hcong]
        simp [hm]

theorem loopPhase_no_newBatch (subs : Nat → Bool) :
    ∀ (fc : List Node) (m : RMap) (l : List Node),
      REvent.newBatch l ∉ (loopPhase subs m fc).2.1 := by
  intro fc
  induction fc with
  | nil => intro m l h; cases h
  | cons node rest ih =>
    intro m l h
    cases hm : m node.nodeID with
    | none =>
      rw [show loopPhase subs m (node :: rest)
          = ((loopPhase subs m rest).1, (loopPhase subs m rest).2.1,
              node :: (loopPhase subs m rest).2.2) by
        simp only [loopPhase, hm]] at h
      exact ih m l h
    | some existingValue =>
      by_cases heq : Node.Equals node existingValue
      · simp only [loopPhase, hm, if_pos heq] at h
        exact ih m l h
      · simp only [loopPhase, hm, if_neg heq, List.mem_append] at h
        rcases h with h | h
        · cases hs : subs node.nodeID <;> rw [hs] at h <;> simp at h
        · exact ih _ l h

theorem loopPhase_changed_isSome (subs : Nat → Bool) :
    ∀ (fc : List Node) (m : RMap) (n : Node),
      REvent.changed n ∈ (loopPhase subs m fc).2.1 →
        (m n.nodeID).isSome = true := by
  intro fc
  induction fc with
  | nil => intro m n h; cases h
  | cons node rest ih =>
    intro m n h
    cases hm : m node.nodeID with
    | none =>
      rw [show loopPhase subs m (node :: rest)
          = ((loopPhase subs m rest).1, (loopPhase subs m rest).2.1,
              node :: (loopPhase subs m rest).2.2) by
        simp only [loopPhase, hm]] at h
      exact ih m n h
    | some existingValue =>
      by_cases heq : Node.Equals node existingValue
      · simp only [loopPhase, hm, if_pos heq] at h
        exact ih m n h
      · simp only [loopPhase, hm, if_neg heq, List.mem_append] at h
        rcases h with h | h
        · cases hs : subs node.nodeID <;> rw [hs] at h <;> simp at h
          rw [h, hm]
          rfl
        · have h2 := ih (RMap.insert m node.nodeID node) n h
          by_cases hi : n.nodeID = node.nodeID
          · rw [hi, hm]
            rfl
          · rwa [insert_apply_ne m node.nodeID node n.nodeID hi] at h2

theorem insertAll_untouched :
    ∀ (ns : List Node) (m : RMap) (i : Nat), (∀ n ∈ ns, n.nodeID ≠ i) →
      insertAll m ns i = m i := by
  intro ns
  induction ns with
  | nil => intro m i _; rfl
  | cons node rest ih =>
    intro m i hni
    have hnode : node.nodeID ≠ i := hni node (List.mem_cons_self node rest)
    rw [show insertAll m (node :: rest) = insertAll (RMap.insert m node.nodeID node) rest
      from rfl]
    rw [ih _ i (fun n hn => hni n (List.mem_cons_of_mem _ hn))]
    exact insert_apply_ne m node.nodeID node i (Ne.symm hnode)

theorem insertAll_isSome_cases :
    ∀ (ns : List Node) (m : RMap) (i : Nat), (insertAll m ns i).isSome = true →
      (m i).isSome = true ∨ ∃ n ∈ ns, n.nodeID = i := by
  intro ns
  induction ns with
  | nil => intro m i h; exact Or.inl h
  | cons node rest ih =>
    intro m i h
    rcases ih (RMap.insert m node.nodeID node) i h with h1 | ⟨n, hn, hni⟩
    · by_cases hi : i = node.nodeID
      · exact Or.inr ⟨node, List.mem_cons_self node rest, hi.symm⟩
      · rw [insert_apply_ne m node.nodeID node i hi] at h1
        exact Or.inl h1
    · exact Or.inr ⟨n, List.mem_cons_of_mem _ hn, hni⟩

theorem insertAll_mem_nodup :
    ∀ (ns : List Node) (m : RMap) (n : Node), (ns.map Node.nodeID).Nodup →
      n ∈ ns → insertAll m ns n.nodeID = some n := by
  intro ns
  induction ns with
  | nil => intro m n _ h; cases h
  | cons node rest ih =>
    intro m n hnd hmem
    rw [List.map_cons, List.nodup_cons] at hnd
    rcases List.mem_cons.mp hmem with heq | hrest
    · subst heq
      rw [show insertAll m (n :: rest) = insertAll (RMap.insert m n.nodeID n) rest
        from rfl]
      rw [insertAll_untouched rest _ n.nodeID]
      · exact insert_apply_self m n.nodeID n
      · intro x hx hxi
        exact hnd.1 (hxi ▸ List.mem_map_of_mem Node.nodeID hx)
    · exact ih _ n hnd.2 hrest

theorem loopPhase_mem_some (subs : Nat → Bool) :
    ∀ (fc : List Node) (m : RMap) (n : Node), (fc.map Node.nodeID).Nodup →
      n ∈ fc → (m n.nodeID).isSome = true →
      (loopPhase subs m fc).1 n.nodeID = some n := by
  intro fc
  induction fc with
  | nil => intro m n _ h _; cases h
  | cons node rest ih =>
    intro m n hnd hmem hsome
    rw [List.map_cons, List.nodup_cons] at hnd
    have hid : node.nodeID ∉ rest.map Node.nodeID := hnd.1
    rcases List.mem_cons.mp hmem with hne | hrest
    · subst hne
      cases hm : m n.nodeID with
      | none => rw [hm] at hsome; cases hsome
      | some existingValue =>
        have huntouched : ∀ x ∈ rest, x.nodeID ≠ n.nodeID := by
          intro x hx hxi
          exact hid (hxi ▸ List.mem_map_of_mem Node.nodeID hx)
        by_cases heq : Node.Equals n existingValue
        · have hv : n = existingValue := of_decide_eq_true heq
          simp only [loopPhase, hm, if_pos heq]
          rw [loopPhase_map_untouched subs rest m n.nodeID huntouched, hm, hv]
        · simp only [loopPhase, hm, if_neg heq]
          rw [loopPhase_map_untouched subs rest _ n.nodeID huntouched]
          exact insert_apply_self m n.nodeID n
    · have hni : n.nodeID ≠ node.nodeID := by
        intro hcontra
        exact hid (hcontra ▸ List.mem_map_of_mem Node.nodeID hrest)
      cases hm : m node.nodeID with
      | none =>
        simp only [loopPhase, hm]
        exact ih m n hnd.2 hrest hsome
      | some existingValue =>
        by_cases heq : Node.Equals node existingValue
        · simp only [loopPhase, hm, if_pos heq]
          exact ih m n hnd.2 hrest hsome
        · simp only [loopPhase, hm, if_neg heq]
          apply ih _ n hnd.2 hrest
          rwa [insert_apply_ne m node.nodeID node n.nodeID hni]

theorem refreshData_mem_some (subs : Nat → Bool) (fc : List Node) (m : RMap)
    (hnd : (fc.map Node.nodeID).Nodup) :
    ∀ n ∈ fc, (refreshData subs m fc).1 n.nodeID = some n := by
  intro n hmem
  unfold refreshData
  cases hsome : (m n.nodeID).isSome with
  | true =>
    have hloop := loopPhase_mem_some subs fc m n hnd hmem hsome
    cases hempty : (loopPhase subs m fc).2.2.isEmpty with
    | true => simpa [hempty] using hloop
    | false =>
      simp only [hempty]
      simp only [Bool.false_eq_true, if_false]
      rw [insertAll_untouched _ _ n.nodeID]
      · exact hloop
      · intro x hx hxi
        rw [loopPhase_newNodes subs fc m, List.mem_filter] at hx
        rw [hxi] at hx
        cases hv : m n.nodeID with
        | none => rw [hv] at hsome; cases hsome
        | some w => rw [hv] at hx; simp at hx
  | false =>
    have hnone : (m n.nodeID).isNone = true := by
      cases hv : m n.nodeID
      · rfl
      · rw [hv] at hsome; cases hsome
    have hmemns : n ∈ (loopPhase subs m fc).2.2 := by
      rw [loopPhase_newNodes subs fc m, List.mem_filter]
      exact ⟨hmem, hnone⟩
    have hempty : (loopPhase subs m fc).2.2.isEmpty = false := by
      cases hcase : (loopPhase subs m fc).2.2 with
      | nil => rw [hcase] at hmemns; cases hmemns
      | cons a l => rfl
    simp only [hempty, Bool.false_eq_true, if_false]
    apply insertAll_mem_nodup _ _ n _ hmemns
    have hsub : List.Sublist ((loopPhase subs m fc).2.2.map Node.nodeID)
        (fc.map Node.nodeID) := by
      rw [loopPhase_newNodes subs fc m]
      exact (List.filter_sublist fc).map Node.nodeID
    exact hnd.sublist hsub

theorem loopPhase_skip (subs : Nat → Bool) :
    ∀ (fc : List Node) (m : RMap), (∀ n ∈ fc, m n.nodeID = some n) →
      loopPhase subs m fc = (m, [], []) := by
  intro fc
  induction fc with
  | nil => intro m _; rfl
  | cons node rest ih =>
    intro m hall
    have hm : m node.nodeID = some node := hall node (List.mem_cons_self node rest)
    have heq : Node.Equals node node = true := decide_eq_true rfl
    simp only [loopPhase, hm, if_pos heq]
    exact ih m (fun n hn => hall n (List.mem_cons_of_mem _ hn))

theorem refreshData_of_skip (subs : Nat → Bool) (m0 : RMap) (fc : List Node)
    (h : loopPhase subs m0 fc = (m0, [], [])) :
    refreshData subs m0 fc = (m0, []) := by
  simp only [refreshData, h]
  rfl

/-- C9: refreshing twice over the same snapshot is idempotent: because the
diff loop and `processNewNodes` store every new or changed node even with
no subscriber registered, the second refresh finds every snapshot id
present with an equal value, emits no notification, and leaves the roster
unchanged. -/
theorem refreshData_idempotent (subs : Nat → Bool) (m : RMap) (fc : List Node)
    (hnd : (fc.map Node.nodeID).Nodup) :
    refreshData subs (refreshData subs m fc).1 fc =
      ((refreshData subs m fc).1, []) :=
  refreshData_of_skip subs _ fc
    (loopPhase_skip subs fc _ (refreshData_mem_some subs fc m hnd))

/-- Witness for C9 at a concrete snapshot over a concrete roster. -/
theorem refreshData_idempotent_witness :
    (fcW.map Node.nodeID).Nodup ∧
    refreshData subsAll (refreshData subsAll mW fcW).1 fcW =
      ((refreshData subsAll mW fcW).1, []) :=
  ⟨by decide, refreshData_idempotent subsAll mW fcW (by decide)⟩

theorem loopPhase_changed_iff (subs : Nat → Bool) :
    ∀ (fc : List Node) (m : RMap), (fc.map Node.nodeID).Nodup →
      ∀ n : Node, (REvent.changed n ∈ (loopPhase subs m fc).2.1 ↔
        (n ∈ fc ∧ subs n.nodeID = true ∧
          ∃ v, m n.nodeID = some v ∧ Node.Equals n v = false)) := by
  intro fc
  induction fc with
  | nil =>
    intro m _ n
    simp [loopPhase]
  | cons node rest ih =>
    intro m hnd n
    rw [List.map_cons, List.nodup_cons] at hnd
    have hid : node.nodeID ∉ rest.map Node.nodeID := hnd.1
    cases hm : m node.nodeID with
    | none =>
      rw [show (loopPhase subs m (node :: rest)).2.1 = (loopPhase subs m rest).2.1 by
        simp only [loopPhase, hm]]
      rw [ih m hnd.2 n]
      constructor
      · rintro ⟨hmem, hsubs, v, hv, hne⟩
        exact ⟨List.mem_cons_of_mem _ hmem, hsubs, v, hv, hne⟩
      · rintro ⟨hmem, hsubs, v, hv, hne⟩
        rcases List.mem_cons.mp hmem with heqn | hmem2
        · subst heqn
          rw [hm] at hv
          cases hv
        · exact ⟨hmem2, hsubs, v, hv, hne⟩
    | some existingValue =>
      by_cases heq : Node.Equals node existingValue
      · rw [show (loopPhase subs m (node :: rest)).2.1 = (loopPhase subs m rest).2.1 by
          simp only [loopPhase, hm, if_pos heq]]
        rw [ih m hnd.2 n]
        constructor
        · rintro ⟨hmem, hsubs, v, hv, hne⟩
          exact ⟨List.mem_cons_of_mem _ hmem, hsubs, v, hv, hne⟩
        · rintro ⟨hmem, hsubs, v, hv, hne⟩
          rcases List.mem_cons.mp hmem with heqn | hmem2
          · subst heqn
            rw [hm] at hv
            cases hv
            rw [heq] at hne
            cases hne
          · exact ⟨hmem2, hsubs, v, hv, hne⟩
      · have hform : (loopPhase subs m (node :: rest)).2.1
            = (if subs node.nodeID then [REvent.changed node] else []) ++
              (loopPhase subs (RMap.insert m node.nodeID node) rest).2.1 := by
          simp only [loopPhase, hm, if_neg heq]
        rw [hform, List.mem_append, ih (RMap.insert m node.nodeID node) hnd.2 n]
        constructor
        · rintro (hhead | ⟨hmem, hsubs, v, hv, hne⟩)
          · cases hs : subs node.nodeID
            · rw [hs] at hhead
              cases hhead
            · rw [hs] at hhead
              have hn : n = node := by
                rcases List.mem_singleton.mp hhead with h2
                cases h2
                rfl
              subst hn
              exact ⟨List.mem_cons_self _ _, hs, existingValue, hm,
                Bool.eq_false_iff.mpr heq⟩
          · have hnid : n.nodeID ≠ node.nodeID := by
              intro hcontra
              exact hid (hcontra ▸ List.mem_map_of_mem Node.nodeID hmem)
            rw [insert_apply_ne m node.nodeID node n.nodeID hnid] at hv
            exact ⟨List.mem_cons_of_mem _ hmem, hsubs, v, hv, hne⟩
        · rintro ⟨hmem, hsubs, v, hv, hne⟩
          rcases List.mem_cons.mp hmem with heqn | hmem2
          · subst heqn
            left
            rw [hsubs]
            exact List.mem_singleton.mpr rfl
          · right
            have hnid : n.nodeID ≠ node.nodeID := by
              intro hcontra
              exact hid (hcontra ▸ List.mem_map_of_mem Node.nodeID hmem2)
            refine ⟨hmem2, hsubs, v, ?_, hne⟩
            rw [insert_apply_ne m node.nodeID node n.nodeID hnid]
            exact hv

theorem refreshData_events_empty (subs : Nat → Bool) (m : RMap) (fc : List Node)
    (h : (loopPhase subs m fc).2.2.isEmpty = true) :
    (refreshData subs m fc).2 = (loopPhase subs m fc).2.1 := by
  simp [refreshData, h]

theorem refreshData_events_nonempty (subs : Nat → Bool) (m : RMap) (fc : List Node)
    (h : (loopPhase subs m fc).2.2.isEmpty = false) :
    (refreshData subs m fc).2 =
      (loopPhase subs m fc).2.1 ++ [REvent.newBatch (loopPhase subs m fc).2.2] := by
  simp [refreshData, h]

theorem refreshData_map_empty (subs : Nat → Bool) (m : RMap) (fc : List Node)
    (h : (loopPhase subs m fc).2.2.isEmpty = true) :
    (refreshData subs m fc).1 = (loopPhase subs m fc).1 := by
  simp [refreshData, h]

theorem refreshData_map_nonempty (subs : Nat → Bool) (m : RMap) (fc : List Node)
    (h : (loopPhase subs m fc).2.2.isEmpty = false) :
    (refreshData subs m fc).1 =
      insertAll (loopPhase subs m fc).1 (loopPhase subs m fc).2.2 := by
  simp [refreshData, h]

/-- C3: one successful refresh diffs the snapshot against the roster by
id: the `NewNodes` batch, emitted exactly when non-empty, holds exactly
the snapshot nodes whose ids are absent from the roster; a changed-node
notification for `n` is emitted exactly when `n` is in the snapshot, its
per-id notifier exists, and the roster holds an unequal value under its
id; and ids untouched by the snapshot are never removed — their roster
entries are left intact. -/
theorem refreshData_diffs_by_id (subs : Nat → Bool) (m : RMap) (fc : List Node)
    (hnd : (fc.map Node.nodeID).Nodup) :
    (∀ l, REvent.newBatch l ∈ (refreshData subs m fc).2 ↔
      (l = fc.filter (fun n => (m n.nodeID).isNone) ∧ l ≠ [])) ∧
    (∀ n, REvent.changed n ∈ (refreshData subs m fc).2 ↔
      (n ∈ fc ∧ subs n.nodeID = true ∧
        ∃ v, m n.nodeID = some v ∧ Node.Equals n v = false)) ∧
    (∀ i, (∀ n ∈ fc, n.nodeID ≠ i) → (refreshData subs m fc).1 i = m i) := by
  have hns := loopPhase_newNodes subs fc m
  cases hempty : (loopPhase subs m fc).2.2.isEmpty with
  | true =>
    have hnil : (loopPhase subs m fc).2.2 = [] := by
      cases hcase : (loopPhase subs m fc).2.2 with
      | nil => rfl
      | cons a l => rw [hcase] at hempty; cases hempty
    refine ⟨?_, ?_, ?_⟩
    · intro l
      rw [refreshData_events_empty subs m fc hempty]
      constructor
      · intro h
        exact absurd h (loopPhase_no_newBatch subs fc m l)
      · rintro ⟨hl, hne⟩
        rw [← hns, hnil] at hl
        exact absurd hl hne
    · intro n
      rw [refreshData_events_empty subs m fc hempty]
      exact loopPhase_changed_iff subs fc m hnd n
    · intro i hi
      rw [refreshData_map_empty subs m fc hempty]
      exact loopPhase_map_untouched subs fc m i hi
  | false =>
    have hnern : (loopPhase subs m fc).2.2 ≠ [] := by
      intro hcontra
      rw [hcontra] at hempty
      cases hempty
    refine ⟨?_, ?_, ?_⟩
    · intro l
      rw [refreshData_events_nonempty subs m fc hempty, List.mem_append,
        List.mem_singleton]
      constructor
      · rintro (h | h)
        · exact absurd h (loopPhase_no_newBatch subs fc m l)
        · have hl : l = (loopPhase subs m fc).2.2 := by
            injection h
          subst hl
          exact ⟨hns, hnern⟩
      · rintro ⟨hl, hne⟩
        right
        exact congrArg REvent.newBatch (hl.trans hns.symm)
    · intro n
      rw [refreshData_events_nonempty subs m fc hempty, List.mem_append,
        List.mem_singleton]
      constructor
      · rintro (h | h)
        · exact (loopPhase_changed_iff subs fc m hnd n).mp h
        · cases h
      · intro hr
        exact Or.inl ((loopPhase_changed_iff subs fc m hnd n).mpr hr)
    · intro i hi
      rw [refreshData_map_nonempty subs m fc hempty]
      rw [insertAll_untouched _ _ i]
      · exact loopPhase_map_untouched subs fc m i hi
      · intro x hx
        rw [hns, List.mem_filter] at hx
        exact hi x hx.1

/-- Witness for C3 at a concrete snapshot (one changed id, one new id)
over a concrete roster. -/
theorem refreshData_diffs_by_id_witness :
    (fcW.map Node.nodeID).Nodup ∧
    (REvent.changed nA2 ∈ (refreshData subsAll mW fcW).2 ↔
      (nA2 ∈ fcW ∧ subsAll nA2.nodeID = true ∧
        ∃ v, mW nA2.nodeID = some v ∧ Node.Equals nA2 v = false)) :=
  ⟨by decide, (refreshData_diffs_by_id subsAll mW fcW (by decide)).2.1 nA2⟩

theorem splitMid {α : Type} (l1 l2 p q : List α) (a : α)
    (h : l1 ++ l2 = p ++ a :: q) :
    (∃ q1, l1 = p ++ a :: q1) ∨ (∃ p2, l2 = p2 ++ a :: q ∧ p = l1 ++ p2) := by
  rcases List.append_eq_append_iff.mp h with ⟨x, hx1, hx2⟩ | ⟨y, hy1, hy2⟩
  · exact Or.inr ⟨x, hx2, hx1⟩
  · cases y with
    | nil =>
      refine Or.inr ⟨[], ?_, ?_⟩
      · simpa using hy2.symm
      · simpa using hy1.symm
    | cons z zs =>
      rw [List.cons_append] at hy2
      injection hy2 with h1 h2
      left
      exact ⟨zs, by rw [hy1, h1]⟩

theorem announced_of_mem (i : Nat) (l : List Node) (evs : List REvent)
    (hmem : REvent.newBatch l ∈ evs) (x : Node) (hx : x ∈ l)
    (hxi : x.nodeID = i) : announced i evs :=
  ⟨l, hmem, x, hx, hxi⟩

theorem announced_append_left (i : Nat) (l1 l2 : List REvent)
    (h : announced i l1) : announced i (l1 ++ l2) := by
  rcases h with ⟨l, hmem, x, hx, hxi⟩
  exact ⟨l, List.mem_append.mpr (Or.inl hmem), x, hx, hxi⟩

theorem announced_append_right (i : Nat) (l1 l2 : List REvent)
    (h : announced i l2) : announced i (l1 ++ l2) := by
  rcases h with ⟨l, hmem, x, hx, hxi⟩
  exact ⟨l, List.mem_append.mpr (Or.inr hmem), x, hx, hxi⟩

theorem tick_changed_isSome (m : RMap)
    (t : (Nat → Bool) × Option (List Node)) (n : Node)
    (h : REvent.changed n ∈ (tick m t).2) : (m n.nodeID).isSome = true := by
  obtain ⟨subs, opt⟩ := t
  cases opt with
  | none => simp [tick] at h
  | some fc =>
    have h2 : REvent.changed n ∈ (refreshData subs m fc).2 := h
    cases hempty : (loopPhase subs m fc).2.2.isEmpty with
    | true =>
      rw [refreshData_events_empty subs m fc hempty] at h2
      exact loopPhase_changed_isSome subs fc m n h2
    | false =>
      rw [refreshData_events_nonempty subs m fc hempty] at h2
      rcases List.mem_append.mp h2 with h3 | h3
      · exact loopPhase_changed_isSome subs fc m n h3
      · exact REvent.noConfusion (List.mem_singleton.mp h3)

theorem tick_isSome_cases (m : RMap)
    (t : (Nat → Bool) × Option (List Node)) (i : Nat)
    (h : ((tick m t).1 i).isSome = true) :
    (m i).isSome = true ∨ announced i (tick m t).2 := by
  obtain ⟨subs, opt⟩ := t
  cases opt with
  | none => exact Or.inl h
  | some fc =>
    have h2 : ((refreshData subs m fc).1 i).isSome = true := h
    cases hempty : (loopPhase subs m fc).2.2.isEmpty with
    | true =>
      rw [refreshData_map_empty subs m fc hempty] at h2
      rw [loopPhase_isSome subs fc m i] at h2
      exact Or.inl h2
    | false =>
      rw [refreshData_map_nonempty subs m fc hempty] at h2
      rcases insertAll_isSome_cases _ _ i h2 with h3 | ⟨n, hn, hni⟩
      · rw [loopPhase_isSome subs fc m i] at h3
        exact Or.inl h3
      · right
        show announced i (refreshData subs m fc).2
        rw [refreshData_events_nonempty subs m fc hempty]
        exact announced_of_mem i (loopPhase subs m fc).2.2 _
          (List.mem_append.mpr (Or.inr (List.mem_singleton.mpr rfl))) n hn hni

theorem runTicks_new_before_changed
    (ticks : List ((Nat → Bool) × Option (List Node))) :
    ∀ (m : RMap) (done : List REvent),
      (∀ i, (m i).isSome = true → announced i done) →
      ∀ (p : List REvent) (n : Node) (q : List REvent),
        (runTicks m ticks).2 = p ++ REvent.changed n :: q →
        announced n.nodeID (done ++ p) := by
  induction ticks with
  | nil =>
    intro m done hinv p n q hsplit
    rw [show (runTicks m ([] : List ((Nat → Bool) × Option (List Node)))).2
        = ([] : List REvent) from rfl] at hsplit
    cases p with
    | nil => exact List.noConfusion hsplit
    | cons a l => exact List.noConfusion hsplit
  | cons t ts ih =>
    intro m done hinv p n q hsplit
    have hform : (runTicks m (t :: ts)).2
        = (tick m t).2 ++ (runTicks (tick m t).1 ts).2 := rfl
    rw [hform] at hsplit
    rcases splitMid _ _ p q (REvent.changed n) hsplit with ⟨q1, hq1⟩ | ⟨p2, hp2, hp⟩
    · have hmem : REvent.changed n ∈ (tick m t).2 := by
        rw [hq1]
        exact List.mem_append.mpr (Or.inr (List.mem_cons_self _ _))
      exact announced_append_left _ _ _ (hinv n.nodeID (tick_changed_isSome m t n hmem))
    · have hinv2 : ∀ i, ((tick m t).1 i).isSome = true →
          announced i (done ++ (tick m t).2) := by
        intro i hi
        rcases tick_isSome_cases m t i hi with h1 | h1
        · exact announced_append_left _ _ _ (hinv i h1)
        · exact announced_append_right _ _ _ h1
      have hres := ih (tick m t).1 (done ++ (tick m t).2) hinv2 p2 n q hp2
      rw [hp, ← List.append_assoc]
      exact hres

/-- C2: over any schedule of refresh ticks started from the empty roster,
whenever the notification trace emits a changed-node event for `n`, an
earlier point of the trace holds a `NewNodes` batch containing a node with
the same id: the changed path fires only for ids already in the roster,
and ids enter the roster only through the new-nodes path. -/
theorem changed_only_after_new
    (ticks : List ((Nat → Bool) × Option (List Node)))
    (p : List REvent) (n : Node) (q : List REvent)
    (h : (runTicks emptyR ticks).2 = p ++ REvent.changed n :: q) :
    announced n.nodeID p := by
  have hinv : ∀ i, (emptyR i).isSome = true → announced i ([] : List REvent) := by
    intro i hi
    simp [emptyR] at hi
  have hres := runTicks_new_before_changed ticks emptyR [] hinv p n q h
  simpa using hres

/-- Witness for C2: a schedule announcing id 1 on the first tick and
changing it on the second; the change event is preceded by the batch. -/
theorem changed_only_after_new_witness :
    (runTicks emptyR [(subsAll, some [nA]), (subsAll, some [nA2])]).2
      = [REvent.newBatch [nA]] ++ REvent.changed nA2 :: [] ∧
    announced nA2.nodeID [REvent.newBatch [nA]] :=
  ⟨by decide,
    changed_only_after_new [(subsAll, some [nA]), (subsAll, some [nA2])]
      [REvent.newBatch [nA]] nA2 [] (by decide)⟩

end Xmtpd
